import Mathlib

/-!
Shallow embedding of the octree-facing core of Urho3D's `Drawable`
(src/Engine/Graphics/Drawable.cpp) and `Octant`/`Octree`
(src/Engine/Graphics/Octree.h), with proofs of the specified properties.

Machine integers (`unsigned`) are modelled as `Nat` with explicit `% 2 ^ 32`
where overflow can matter; `float` quantities are modelled as `ℚ` (the
properties verified about them are order-theoretic, not rounding-sensitive);
pointers are modelled as numeric ids with `0` playing the role of null, or as
`Option` values.
-/

/-! ### Base-pass bitset (Drawable.cpp 220-231 and 243-250)

`basePassFlags_` is a `PODVector<unsigned>`; we model it as a list of 32-bit
words. `Resize` followed by the zero-fill loop amounts to appending zero
words. -/

/-- `Drawable::SetBasePass` (Drawable.cpp 220-231). The word index is computed
as `batchIndex << 5` (as in the source - note the getter below uses `>> 5`);
the vector grows zero-filled when the index is out of range, then bit
`batchIndex & 31` of that word is OR-ed in. Unsigned arithmetic is mod `2^32`. -/
def setBasePass (flags : List Nat) (batchIndex : Nat) : List Nat :=
  let index := (batchIndex <<< 5) % 2 ^ 32
  let grown :=
    if flags.length ≤ index then flags ++ List.replicate (index + 1 - flags.length) 0
    else flags
  grown.set index (grown.getD index 0 ||| ((1 <<< (batchIndex % 32)) % 2 ^ 32))

/-- `Drawable::HasBasePass` (Drawable.cpp 243-250). The word index is computed
as `batchIndex >> 5`; out-of-range reads return `false`. -/
def hasBasePass (flags : List Nat) (batchIndex : Nat) : Bool :=
  let index := batchIndex >>> 5
  if index < flags.length then
    (flags.getD index 0 &&& ((1 <<< (batchIndex % 32)) % 2 ^ 32)) != 0
  else false

/-! ### LOD bias (Drawable.cpp 116-119) -/

/-- `M_EPSILON` (the engine's small float epsilon, 0.000001), as a rational. -/
def mEpsilon : ℚ := 1 / 1000000

/-- The engine's `Max` template: `a > b ? a : b`. -/
def urhoMax (a b : ℚ) : ℚ := if b < a then a else b

/-- `Drawable::SetLodBias` (Drawable.cpp 116-119): the stored value is
`Max(bias, M_EPSILON)`. -/
def setLodBias (bias : ℚ) : ℚ := urhoMax bias mEpsilon

/-! ### View marking (Drawable.cpp 168-181 and 233-241) -/

/-- The per-frame data consulted by the view-marking code: the frame number
and the active camera (a pointer, modelled as a numeric id, `0` = null). -/
structure FrameInfo where
  frameNumber : Nat
  camera : Nat
deriving DecidableEq

/-- The drawable's view bookkeeping: `viewFrameNumber_` and `viewCamera_`
(a camera pointer, `0` = null). -/
structure ViewState where
  viewFrameNumber : Nat
  viewCamera : Nat
deriving DecidableEq

/-- `Drawable::MarkInView` (Drawable.cpp 168-172): stores the frame number and
the camera. -/
def markInView (s : ViewState) (f : FrameInfo) : ViewState :=
  { s with viewFrameNumber := f.frameNumber, viewCamera := f.camera }

/-- `Drawable::MarkInShadowView` (Drawable.cpp 174-181): only when the stored
frame number differs from the frame's number, store the frame number and null
the camera. -/
def markInShadowView (s : ViewState) (f : FrameInfo) : ViewState :=
  if s.viewFrameNumber ≠ f.frameNumber then
    { s with viewFrameNumber := f.frameNumber, viewCamera := 0 }
  else s

/-- `Drawable::IsInView(const FrameInfo&)` (Drawable.cpp 238-241): both the
frame number and the camera must match. -/
def isInView (s : ViewState) (f : FrameInfo) : Bool :=
  s.viewFrameNumber == f.frameNumber && s.viewCamera == f.camera

/-! ### Cached world bounding box (Drawable.cpp 157-166) -/

/-- The drawable state touched by `GetWorldBoundingBox`: the cached box
`worldBoundingBox_` (box type `B` left abstract) and the dirty flag. -/
structure DrawableBox (B : Type) where
  worldBoundingBox : B
  worldBoundingBoxDirty : Bool

/-- `Drawable::GetWorldBoundingBox` (Drawable.cpp 157-166). The polymorphic
`OnWorldBoundingBoxUpdate` hook, which recomputes `worldBoundingBox_`, is the
parameter `hook`. Returns the returned box, the post-call state, and how many
times the hook was invoked. -/
def getWorldBoundingBox {B : Type} (hook : DrawableBox B → B) (d : DrawableBox B) :
    B × DrawableBox B × Nat :=
  if d.worldBoundingBoxDirty then
    let d1 : DrawableBox B := { worldBoundingBox := hook d, worldBoundingBoxDirty := false }
    (d1.worldBoundingBox, d1, 1)
  else (d.worldBoundingBox, d, 0)

/-! ### Light limiting (Drawable.cpp 203-218) -/

/-- `Drawable::LimitLights` (Drawable.cpp 203-218). Each light's
intensity-based sort value relative to the drawable's world-bounding-box
center (`SetIntensitySortValue` / `GetSortValue`, in Light.cpp outside src/)
is abstracted as `val`. Modelled from the spec: the `Sort` call (Sort.h, not
under src/) with the `CompareDrawables` ordering is a stable merge sort by
ascending sort value. A maximum-lights value of 0 means unlimited and returns
immediately; otherwise the list is sorted and, when longer than `maxLights`,
truncated to `maxLights`. -/
def limitLights {L : Type} (val : L → ℚ) (maxLights : Nat) (lights : List L) : List L :=
  if maxLights = 0 then lights
  else
    let sorted := lights.mergeSort (fun a b => decide (val a ≤ val b))
    if maxLights < sorted.length then sorted.take maxLights else sorted

/-! ### Octant tree (Octree.h 39-153)

An octant holds its direct drawable list (`drawables_`, drawables identified
by numeric ids), the incrementally maintained subtree count `numDrawables_`,
and `NUM_OCTANTS` child slots (`none` = null child pointer). Octants are
addressed by the path of child-slot indices from the octant on which a method
is invoked; the parent-pointer chain of the source corresponds to the stack of
nodes along that path. -/

/-- `NUM_OCTANTS` (Octree.h 36): eight child slots per octant. -/
def NUM_OCTANTS : Nat := 8

/-- One octant (Octree.h 39-153): `drawables_`, `numDrawables_`, `children_`. -/
inductive Octant : Type where
  | node (drawables : List Nat) (numDrawables : Nat) (children : List (Option Octant)) : Octant

/-- The octant's direct drawable list `drawables_`. -/
def Octant.drawables : Octant → List Nat
  | .node ds _ _ => ds

/-- The octant's stored subtree count `numDrawables_` (`GetNumDrawables`). -/
def Octant.numDrawables : Octant → Nat
  | .node _ n _ => n

/-- The octant's child slots `children_`. -/
def Octant.children : Octant → List (Option Octant)
  | .node _ _ cs => cs

/-- Stored count of an optional child; a null slot contributes 0. -/
def childCount : Option Octant → Nat
  | none => 0
  | some c => c.numDrawables

/-- Sum of the stored counts over a child array. -/
def sumChildCounts : List (Option Octant) → Nat
  | [] => 0
  | c :: rest => childCount c + sumChildCounts rest

mutual
/-- The count invariant of the spec: `numDrawables_` equals the number of
directly held drawables plus the stored counts of the existing children, and
the same holds recursively in every child. -/
def countOk : Octant → Bool
  | .node ds n cs => (n == ds.length + sumChildCounts cs) && countOkChildren cs

/-- `countOk` on every non-null entry of a child array. -/
def countOkChildren : List (Option Octant) → Bool
  | [] => true
  | none :: rest => countOkChildren rest
  | some c :: rest => countOk c && countOkChildren rest
end

/-- Locate the octant addressed by `path` (the object a method is invoked on
in the source); `none` if the path crosses a null or out-of-range slot. -/
def getOctant : Octant → List Nat → Option Octant
  | o, [] => some o
  | .node _ _ cs, i :: p =>
    match cs[i]? with
    | some (some c) => getOctant c p
    | _ => none

/-- `Octant::AddDrawable` (Octree.h 58-64) invoked on the octant at `path`:
push the drawable onto that octant's list, then `IncDrawableCount`
(Octree.h 109-115) increments `numDrawables_` there and, through the parent
chain, in every octant along the path. `none` if `path` addresses no octant.
`++numDrawables_` is unsigned; counts stay far below `2^32` here, so plain
`Nat` successor is used. -/
def addDrawable : Octant → List Nat → Nat → Option Octant
  | .node ds n cs, [], d => some (.node (ds ++ [d]) (n + 1) cs)
  | .node ds n cs, i :: p, d =>
    match cs[i]? with
    | some (some c) =>
      match addDrawable c p d with
      | some c1 => some (.node ds (n + 1) (cs.set i (some c1)))
      | none => none
    | _ => none

/-- `Octant::RemoveDrawable` (Octree.h 66-77) invoked on the octant at `path`:
if the drawable is found in that octant's direct list it is erased and
`DecDrawableCount` (Octree.h 117-131) runs: every octant along the path
decrements its count, and a child whose count reaches zero is deleted by its
parent (`DeleteChild`, slot nulled) before the parent itself decrements -
mirroring the statement order of `DecDrawableCount`. Returns the updated tree
and whether the drawable was found (when not found nothing is mutated);
`none` if `path` addresses no octant. `--numDrawables_` is unsigned; under the
count invariant every decremented count is positive, so truncated `Nat`
subtraction agrees with the source. -/
def removeDrawable : Octant → List Nat → Nat → Option (Octant × Bool)
  | .node ds n cs, [], d =>
    if d ∈ ds then some (.node (ds.erase d) (n - 1) cs, true)
    else some (.node ds n cs, false)
  | .node ds n cs, i :: p, d =>
    match cs[i]? with
    | some (some c) =>
      match removeDrawable c p d with
      | some (c1, true) =>
        some (.node ds (n - 1)
          (cs.set i (if c1.numDrawables == 0 then none else some c1)), true)
      | some (_, false) => some (.node ds n cs, false)
      | none => none
    | _ => none

/-- `Octant::RemoveDrawable`'s effect on the drawable's octant back-reference:
`SetOctant(0)` is called exactly when the drawable is found (with the default
`resetOctant = true`). -/
def removeDrawableAt (o : Octant) (p : List Nat) (d : Nat) (backref : Option (List Nat)) :
    Option (Octant × Option (List Nat)) :=
  match removeDrawable o p d with
  | some (o1, true) => some (o1, none)
  | some (o1, false) => some (o1, backref)
  | none => none

/-- A freshly constructed octant (the `Octant` constructor, Octree.cpp outside
src/): no drawables, count 0, eight null child slots. -/
def emptyOctant : Octant := .node [] 0 (List.replicate NUM_OCTANTS none)

/-- Modelled from the spec: `Octant::InsertDrawable` (Octree.cpp, not under
src/). Recursive placement: at the maximum subdivision level (`fuel = 0`) or
when the fit heuristic keeps the drawable at this level (`place path = none`),
the drawable is stored here via `AddDrawable`, whose `IncDrawableCount` then
increments every octant up the parent chain - hence the `+ 1` at each level of
the descent; otherwise the walk descends into the selected child, creating it
if absent (`GetOrCreateChild`). The floating-point fit/child-selection
decision (`CheckDrawableSize` and the center comparison) is abstracted as the
oracle `place`, so the theorems hold for every possible placement. -/
def insertDrawable (place : List Nat → Option Nat) : Nat → List Nat → Octant → Nat → Octant
  | 0, _, .node ds n cs, d => .node (ds ++ [d]) (n + 1) cs
  | fuel + 1, path, .node ds n cs, d =>
    match place path with
    | none => .node (ds ++ [d]) (n + 1) cs
    | some i =>
      match cs[i]? with
      | some (some c) =>
        .node ds (n + 1) (cs.set i (some (insertDrawable place fuel (path ++ [i]) c d)))
      | some none =>
        .node ds (n + 1) (cs.set i (some (insertDrawable place fuel (path ++ [i]) emptyOctant d)))
      | none => .node (ds ++ [d]) (n + 1) cs

/-- Modelled from the spec: `Octree::ReinsertDrawables` (Octree.cpp, not under
src/): a queued drawable is removed from its current octant and re-inserted
from the root with `InsertDrawable`. -/
def reinsertDrawable (place : List Nat → Option Nat) (fuel : Nat) (root : Octant)
    (path : List Nat) (d : Nat) : Octant :=
  match removeDrawable root path d with
  | some (t, _) => insertDrawable place fuel [] t d
  | none => insertDrawable place fuel [] root d

/-- Validity of a child-slot value: null slots are vacuously fine. -/
def childOk : Option Octant → Bool
  | none => true
  | some c => countOk c

/-! ### Queues and lifecycle (Drawable.cpp 264-272, 285-294, 65-68) -/

/-- The octree bookkeeping visible to a drawable: the octant tree plus the
pending-update and pending-reinsertion queues (`drawableUpdates_`,
`drawableReinsertions_`; the weak references are modelled as drawable ids). -/
structure OctreeState where
  tree : Octant
  drawableUpdates : List Nat
  drawableReinsertions : List Nat

/-- A drawable's octree-facing links: the `octant_` back-reference (modelled
as the path of its octant, `none` = null) and the bounding-box dirty flag. -/
structure DrawableLink where
  octant : Option (List Nat)
  worldBoundingBoxDirty : Bool

/-- Modelled from the spec: `Octree::QueueReinsertion` (Octree.cpp, not under
src/) appends the drawable to the reinsertion queue under the octree mutex. -/
def queueReinsertion (s : OctreeState) (d : Nat) : OctreeState :=
  { s with drawableReinsertions := s.drawableReinsertions ++ [d] }

/-- `Drawable::OnMarkedDirty` (Drawable.cpp 264-272): when notified for its
own node (`sameNode` models the `node == node_` test), set the
world-bounding-box dirty flag and, if currently indexed (`octant_` non-null),
queue a reinsertion with the octree root; nothing else is touched. -/
def onMarkedDirty (sameNode : Bool) (dr : DrawableLink) (s : OctreeState) (d : Nat) :
    DrawableLink × OctreeState :=
  if sameNode then
    let dr1 := { dr with worldBoundingBoxDirty := true }
    match dr.octant with
    | some _ => (dr1, queueReinsertion s d)
    | none => (dr1, s)
  else (dr, s)

/-- Modelled from the spec: `Octree::CancelUpdate` (Octree.cpp, not under
src/) removes the drawable's pending entries from the update queue. -/
def cancelUpdate (s : OctreeState) (d : Nat) : OctreeState :=
  { s with drawableUpdates := s.drawableUpdates.filter (fun x => x ≠ d) }

/-- Modelled from the spec: `Octree::CancelReinsertion` (Octree.cpp, not under
src/) removes the drawable's pending entries from the reinsertion queue. -/
def cancelReinsertion (s : OctreeState) (d : Nat) : OctreeState :=
  { s with drawableReinsertions := s.drawableReinsertions.filter (fun x => x ≠ d) }

/-- `Drawable::RemoveFromOctree` (Drawable.cpp 285-294): when attached
(`octant_` non-null), first cancel the pending update and reinsertion entries
with the octree root, then `Octant::RemoveDrawable` unlinks the drawable from
its octant (resetting the back-reference when found). -/
def removeFromOctree (dr : DrawableLink) (s : OctreeState) (d : Nat) :
    DrawableLink × OctreeState :=
  match dr.octant with
  | some path =>
    let s1 := cancelReinsertion (cancelUpdate s d) d
    match removeDrawable s1.tree path d with
    | some (t, true) => ({ dr with octant := none }, { s1 with tree := t })
    | some (t, false) => (dr, { s1 with tree := t })
    | none => (dr, s1)
  | none => (dr, s)

/-- `Drawable::~Drawable` (Drawable.cpp 65-68): the destructor just runs
`RemoveFromOctree`. -/
def drawableDestructor (dr : DrawableLink) (s : OctreeState) (d : Nat) :
    DrawableLink × OctreeState :=
  removeFromOctree dr s d

/-! ### Theorems -/
/-- Claim C1 (refuting evaluation at the failing input): starting from an empty
base-pass bitset, `SetBasePass 1` followed by `HasBasePass 1` yields `false`,
not `true`: the setter computes its word index with `batchIndex << 5` (writing
bit 1 of word 32) while the getter reads word `batchIndex >> 5 = 0`. -/
theorem hasBasePass_after_setBasePass_one :
    hasBasePass (setBasePass [] 1) 1 = false := by decide

/-- Claim C8: for every input `bias` (including zero and negative values),
`SetLodBias` stores `max bias M_EPSILON`, hence the stored LOD bias is always
strictly positive. -/
theorem setLodBias_spec (bias : ℚ) :
    setLodBias bias = max bias mEpsilon ∧ 0 < setLodBias bias := by
  unfold setLodBias urhoMax
  rcases lt_or_le mEpsilon bias with h | h
  · rw [if_pos h, max_eq_left h.le]
    exact ⟨rfl, lt_trans (by norm_num [mEpsilon]) h⟩
  · rw [if_neg (not_lt.mpr h), max_eq_right h]
    exact ⟨rfl, by norm_num [mEpsilon]⟩

/-- Claim C10: `MarkInShadowView` changes nothing when the stored frame number
already equals the frame's number, and otherwise sets the frame number and
clears the camera; in particular after `MarkInView` for the same frame it is a
no-op, so the camera-specific `IsInView` test for that frame still holds. -/
theorem markInShadowView_spec (s : ViewState) (f : FrameInfo) :
    (s.viewFrameNumber = f.frameNumber → markInShadowView s f = s) ∧
    (s.viewFrameNumber ≠ f.frameNumber →
      markInShadowView s f = { s with viewFrameNumber := f.frameNumber, viewCamera := 0 }) ∧
    markInShadowView (markInView s f) f = markInView s f ∧
    isInView (markInShadowView (markInView s f) f) f = true := by
  refine ⟨fun h => ?_, fun h => ?_, ?_, ?_⟩ <;>
    simp [markInShadowView, markInView, isInView, *]

/-- Concrete instantiation of `markInShadowView_spec`, with each hypothesis
discharged by evaluation. -/
theorem markInShadowView_spec_witness :
    markInShadowView ⟨3, 7⟩ ⟨3, 7⟩ = ⟨3, 7⟩ ∧
    markInShadowView ⟨2, 7⟩ ⟨3, 9⟩ = ⟨3, 0⟩ ∧
    isInView (markInShadowView (markInView ⟨0, 0⟩ ⟨3, 9⟩) ⟨3, 9⟩) ⟨3, 9⟩ = true :=
  ⟨(markInShadowView_spec ⟨3, 7⟩ ⟨3, 7⟩).1 rfl,
   (markInShadowView_spec ⟨2, 7⟩ ⟨3, 9⟩).2.1 (by decide),
   (markInShadowView_spec ⟨0, 0⟩ ⟨3, 9⟩).2.2.2⟩

/-- Claim C5: `GetWorldBoundingBox` invokes the recompute hook exactly when the
dirty flag is set, leaves the flag cleared, and returns the cached box; a
second call on the resulting state invokes the hook zero times, returns the
same box, and leaves the state unchanged (so two consecutive calls invoke the
hook at most once in total). -/
theorem getWorldBoundingBox_spec {B : Type} (hook : DrawableBox B → B) (d : DrawableBox B) :
    (getWorldBoundingBox hook d).2.2 = (if d.worldBoundingBoxDirty then 1 else 0) ∧
    (getWorldBoundingBox hook d).2.1.worldBoundingBoxDirty = false ∧
    (getWorldBoundingBox hook d).1 = (getWorldBoundingBox hook d).2.1.worldBoundingBox ∧
    (getWorldBoundingBox hook (getWorldBoundingBox hook d).2.1).2.2 = 0 ∧
    (getWorldBoundingBox hook (getWorldBoundingBox hook d).2.1).1 =
      (getWorldBoundingBox hook d).1 ∧
    (getWorldBoundingBox hook (getWorldBoundingBox hook d).2.1).2.1 =
      (getWorldBoundingBox hook d).2.1 := by
  by_cases h : d.worldBoundingBoxDirty <;> simp [getWorldBoundingBox, h]

/-- Claim C4: if `maxLights` is zero, `LimitLights` leaves the lights list
unchanged; if nonzero, afterwards the list is sorted in ascending order of the
intensity-based sort value and its length is at most `maxLights`. -/
theorem limitLights_spec {L : Type} (val : L → ℚ) (maxLights : Nat) (lights : List L) :
    (maxLights = 0 → limitLights val maxLights lights = lights) ∧
    (maxLights ≠ 0 →
      (limitLights val maxLights lights).Pairwise (fun a b => val a ≤ val b) ∧
      (limitLights val maxLights lights).length ≤ maxLights) := by
  constructor
  · intro h
    simp [limitLights, h]
  · intro h
    have hsorted :
        (lights.mergeSort (fun a b => decide (val a ≤ val b))).Pairwise
          (fun a b => val a ≤ val b) := by
      have := @List.sorted_mergeSort L
        (fun a b => decide (val a ≤ val b))
        (fun a b c hab hbc => by
          simp only [decide_eq_true_eq] at *
          exact le_trans hab hbc)
        (fun a b => by
          simp only [Bool.or_eq_true, decide_eq_true_eq]
          exact le_total _ _)
        lights
      exact this.imp (fun hab => by simpa using hab)
    unfold limitLights
    rw [if_neg h]
    by_cases hlen : maxLights < (lights.mergeSort (fun a b => decide (val a ≤ val b))).length
    · rw [if_pos hlen]
      refine ⟨hsorted.sublist (List.take_sublist _ _), ?_⟩
      simp [List.length_take]
    · rw [if_neg hlen]
      exact ⟨hsorted, le_of_not_lt hlen⟩

/-- Concrete instantiation of `limitLights_spec`, with each hypothesis
discharged by evaluation. -/
theorem limitLights_spec_witness :
    limitLights (fun q : ℚ => q) 0 [3, 1, 2] = [3, 1, 2] ∧
    (limitLights (fun q : ℚ => q) 2 [3, 1, 2]).Pairwise (fun a b => a ≤ b) ∧
    (limitLights (fun q : ℚ => q) 2 [3, 1, 2]).length ≤ 2 :=
  ⟨(limitLights_spec (fun q : ℚ => q) 0 [3, 1, 2]).1 rfl,
   ((limitLights_spec (fun q : ℚ => q) 2 [3, 1, 2]).2 (by decide)).1,
   ((limitLights_spec (fun q : ℚ => q) 2 [3, 1, 2]).2 (by decide)).2⟩

/-! ### Count-invariant lemmas -/

/-- `countOk` on a node, unfolded. -/
theorem countOk_node {ds : List Nat} {n : Nat} {cs : List (Option Octant)} :
    countOk (.node ds n cs) = true ↔
      n = ds.length + sumChildCounts cs ∧ countOkChildren cs = true := by
  simp [countOk, Bool.and_eq_true]

/-- A child found in a `countOk` child array is itself `countOk`. -/
theorem countOkChildren_get : ∀ (cs : List (Option Octant)) (i : Nat) (c : Octant),
    countOkChildren cs = true → cs[i]? = some (some c) → countOk c = true := by
  intro cs
  induction cs with
  | nil => intro i c _ hget; simp at hget
  | cons hd tl ih =>
    intro i c hok hget
    cases i with
    | zero =>
      simp at hget
      subst hget
      simp only [countOkChildren, Bool.and_eq_true] at hok
      exact hok.1
    | succ j =>
      simp at hget
      cases hd with
      | none => exact ih j c (by simpa [countOkChildren] using hok) hget
      | some c0 =>
        simp only [countOkChildren, Bool.and_eq_true] at hok
        exact ih j c hok.2 hget

/-- Writing a valid value into a slot of a `countOk` child array keeps every
entry `countOk`. -/
theorem countOkChildren_set : ∀ (cs : List (Option Octant)) (i : Nat) (x : Option Octant),
    countOkChildren cs = true → childOk x = true →
    countOkChildren (cs.set i x) = true := by
  intro cs
  induction cs with
  | nil => intro i x hok _; simpa using hok
  | cons hd tl ih =>
    intro i x hok hx
    cases i with
    | zero =>
      cases x with
      | none => cases hd <;> simp_all [countOkChildren, childOk, List.set]
      | some c => cases hd <;> simp_all [countOkChildren, childOk, List.set]
    | succ j =>
      cases hd with
      | none =>
        simpa [countOkChildren, List.set] using ih j x (by simpa [countOkChildren] using hok) hx
      | some c0 =>
        simp only [countOkChildren, Bool.and_eq_true] at hok
        simp only [List.set, countOkChildren, Bool.and_eq_true]
        exact ⟨hok.1, ih j x hok.2 hx⟩

/-- Replacing slot `i` (currently `y`) with `x` shifts the stored-count sum by
the difference of the two slot counts. -/
theorem sumChildCounts_set : ∀ (cs : List (Option Octant)) (i : Nat) (y x : Option Octant),
    cs[i]? = some y →
    sumChildCounts (cs.set i x) + childCount y = sumChildCounts cs + childCount x := by
  intro cs
  induction cs with
  | nil => intro i y x hget; simp at hget
  | cons hd tl ih =>
    intro i y x hget
    cases i with
    | zero =>
      simp at hget
      subst hget
      simp [sumChildCounts, List.set]
      omega
    | succ j =>
      simp at hget
      have := ih j y x hget
      simp [sumChildCounts, List.set]
      omega

/-- The stored count of any slot is bounded by the stored-count sum. -/
theorem childCount_le_sum : ∀ (cs : List (Option Octant)) (i : Nat) (y : Option Octant),
    cs[i]? = some y → childCount y ≤ sumChildCounts cs := by
  intro cs
  induction cs with
  | nil => intro i y hget; simp at hget
  | cons hd tl ih =>
    intro i y hget
    cases i with
    | zero =>
      simp at hget
      subst hget
      simp [sumChildCounts]
    | succ j =>
      simp at hget
      have := ih j y hget
      simp [sumChildCounts]
      omega

/-- A successful `AddDrawable` increments the count of the octant it starts
from (via `IncDrawableCount`'s parent-chain walk). -/
theorem addDrawable_numDrawables : ∀ (p : List Nat) (o o1 : Octant) (d : Nat),
    addDrawable o p d = some o1 → o1.numDrawables = o.numDrawables + 1 := by
  intro p
  cases p with
  | nil =>
    intro o o1 d h
    cases o with
    | node ds n cs =>
      simp [addDrawable] at h
      subst h
      simp [Octant.numDrawables]
  | cons i p =>
    intro o o1 d h
    cases o with
    | node ds n cs =>
      simp only [addDrawable] at h
      split at h
      · split at h
        · simp at h
          subst h
          simp [Octant.numDrawables]
        · simp at h
      · simp at h

/-- `AddDrawable` preserves the count invariant. -/
theorem countOk_addDrawable : ∀ (p : List Nat) (o o1 : Octant) (d : Nat),
    countOk o = true → addDrawable o p d = some o1 → countOk o1 = true := by
  intro p
  induction p with
  | nil =>
    intro o o1 d hok h
    cases o with
    | node ds n cs =>
      simp [addDrawable] at h
      subst h
      rcases countOk_node.mp hok with ⟨hn, hcs⟩
      refine countOk_node.mpr ⟨?_, hcs⟩
      simp
      omega
  | cons i p ih =>
    intro o o1 d hok h
    cases o with
    | node ds n cs =>
      simp only [addDrawable] at h
      split at h
      next c heq =>
        split at h
        next c1 ha =>
          simp at h
          subst h
          rcases countOk_node.mp hok with ⟨hn, hcs⟩
          have hc : countOk c = true := countOkChildren_get cs i c hcs heq
          have hc1 : countOk c1 = true := ih c c1 d hc ha
          have hcnt : c1.numDrawables = c.numDrawables + 1 :=
            addDrawable_numDrawables p c c1 d ha
          have hsum := sumChildCounts_set cs i (some c) (some c1) heq
          refine countOk_node.mpr
            ⟨?_, countOkChildren_set cs i (some c1) hcs (by simp [childOk, hc1])⟩
          simp [childCount] at hsum
          omega
        next => simp at h
      next => simp at h

/-- When `RemoveDrawable` does not find the drawable, nothing changes. -/
theorem removeDrawable_not_found : ∀ (p : List Nat) (o o1 : Octant) (d : Nat),
    removeDrawable o p d = some (o1, false) → o1 = o := by
  intro p
  cases p with
  | nil =>
    intro o o1 d h
    cases o with
    | node ds n cs =>
      simp only [removeDrawable] at h
      split at h
      · simp at h
      · simp at h
        exact h.symm
  | cons i p =>
    intro o o1 d h
    cases o with
    | node ds n cs =>
      simp only [removeDrawable] at h
      split at h
      next c heq =>
        split at h
        next c1 hr => simp at h
        next c1 hr =>
          simp at h
          exact h.symm
        next hr => simp at h
      next => simp at h

/-- A successful removal decrements the count of the octant it starts from
(`DecDrawableCount`'s parent-chain walk), given the count invariant. -/
theorem removeDrawable_found_count : ∀ (p : List Nat) (o o1 : Octant) (d : Nat),
    countOk o = true → removeDrawable o p d = some (o1, true) →
    o.numDrawables = o1.numDrawables + 1 := by
  intro p
  induction p with
  | nil =>
    intro o o1 d hok h
    cases o with
    | node ds n cs =>
      simp only [removeDrawable] at h
      split at h
      next hd =>
        simp at h
        rcases countOk_node.mp hok with ⟨hn, -⟩
        have hpos : 0 < ds.length := List.length_pos.mpr (List.ne_nil_of_mem hd)
        rw [← h]
        simp [Octant.numDrawables]
        omega
      next => simp at h
  | cons i p ih =>
    intro o o1 d hok h
    cases o with
    | node ds n cs =>
      simp only [removeDrawable] at h
      split at h
      next c heq =>
        split at h
        next c1 hr =>
          simp at h
          rcases countOk_node.mp hok with ⟨hn, hcs⟩
          have hc : countOk c = true := countOkChildren_get cs i c hcs heq
          have hdelta : c.numDrawables = c1.numDrawables + 1 := ih c c1 d hc hr
          have hle : childCount (some c) ≤ sumChildCounts cs := childCount_le_sum cs i _ heq
          rw [← h]
          simp [Octant.numDrawables]
          simp [childCount] at hle
          omega
        next c1 hr => simp at h
        next hr => simp at h
      next => simp at h

/-- `RemoveDrawable` preserves the count invariant. -/
theorem countOk_removeDrawable : ∀ (p : List Nat) (o o1 : Octant) (flag : Bool) (d : Nat),
    countOk o = true → removeDrawable o p d = some (o1, flag) → countOk o1 = true := by
  intro p
  induction p with
  | nil =>
    intro o o1 flag d hok h
    cases o with
    | node ds n cs =>
      simp only [removeDrawable] at h
      split at h
      next hd =>
        simp at h
        rcases countOk_node.mp hok with ⟨hn, hcs⟩
        rw [← h.1]
        refine countOk_node.mpr ⟨?_, hcs⟩
        have hlen : ds.length = (ds.erase d).length + 1 := by
          rw [List.length_erase_of_mem hd]
          have hpos : 0 < ds.length := List.length_pos.mpr (List.ne_nil_of_mem hd)
          omega
        omega
      next =>
        simp at h
        rw [← h.1]
        exact hok
  | cons i p ih =>
    intro o o1 flag d hok h
    cases o with
    | node ds n cs =>
      simp only [removeDrawable] at h
      split at h
      next c heq =>
        split at h
        next c1 hr =>
          simp at h
          rcases countOk_node.mp hok with ⟨hn, hcs⟩
          have hc : countOk c = true := countOkChildren_get cs i c hcs heq
          have hc1 : countOk c1 = true := ih c c1 true d hc hr
          have hdelta : c.numDrawables = c1.numDrawables + 1 :=
            removeDrawable_found_count p c c1 d hc hr
          rw [← h.1]
          by_cases hz : c1.numDrawables = 0
          · have hsum := sumChildCounts_set cs i (some c) none heq
            refine countOk_node.mpr ?_
            rw [if_pos (by simpa using hz)]
            refine ⟨?_, countOkChildren_set cs i none hcs (by simp [childOk])⟩
            simp [childCount] at hsum
            omega
          · have hsum := sumChildCounts_set cs i (some c) (some c1) heq
            refine countOk_node.mpr ?_
            rw [if_neg (by simpa using hz)]
            refine ⟨?_, countOkChildren_set cs i (some c1) hcs (by simp [childOk, hc1])⟩
            simp [childCount] at hsum
            omega
        next c1 hr =>
          simp at h
          rw [← h.1]
          exact hok
        next hr => simp at h
      next => simp at h

/-- A freshly constructed octant satisfies the count invariant. -/
theorem countOk_emptyOctant : countOk emptyOctant = true := by decide

/-- `InsertDrawable` increments the count of the octant it starts from
(the stored drawable's `AddDrawable` propagates up through the whole descent). -/
theorem insertDrawable_numDrawables (place : List Nat → Option Nat) (fuel : Nat)
    (path : List Nat) (o : Octant) (d : Nat) :
    (insertDrawable place fuel path o d).numDrawables = o.numDrawables + 1 := by
  cases fuel with
  | zero =>
    cases o with
    | node ds n cs => simp [insertDrawable, Octant.numDrawables]
  | succ f =>
    cases o with
    | node ds n cs =>
      simp only [insertDrawable]
      split
      · simp [Octant.numDrawables]
      · split <;> simp [Octant.numDrawables]

/-- `InsertDrawable` preserves the count invariant, whatever placement the
geometric fit heuristic chooses. -/
theorem countOk_insertDrawable (place : List Nat → Option Nat) : ∀ (fuel : Nat)
    (path : List Nat) (o : Octant) (d : Nat),
    countOk o = true → countOk (insertDrawable place fuel path o d) = true := by
  intro fuel
  induction fuel with
  | zero =>
    intro path o d hok
    cases o with
    | node ds n cs =>
      rcases countOk_node.mp hok with ⟨hn, hcs⟩
      simp only [insertDrawable]
      refine countOk_node.mpr ⟨?_, hcs⟩
      simp
      omega
  | succ f ih =>
    intro path o d hok
    cases o with
    | node ds n cs =>
      rcases countOk_node.mp hok with ⟨hn, hcs⟩
      simp only [insertDrawable]
      split
      · exact countOk_node.mpr ⟨by simp; omega, hcs⟩
      next i hpl =>
        split
        next c heq =>
          have hc : countOk c = true := countOkChildren_get cs i c hcs heq
          have hc1 := ih (path ++ [i]) c d hc
          have hcnt := insertDrawable_numDrawables place f (path ++ [i]) c d
          have hsum := sumChildCounts_set cs i (some c)
            (some (insertDrawable place f (path ++ [i]) c d)) heq
          refine countOk_node.mpr
            ⟨?_, countOkChildren_set cs i _ hcs (by simp [childOk, hc1])⟩
          simp [childCount] at hsum
          omega
        next heq =>
          have hc1 := ih (path ++ [i]) emptyOctant d countOk_emptyOctant
          have hcnt := insertDrawable_numDrawables place f (path ++ [i]) emptyOctant d
          have hsum := sumChildCounts_set cs i none
            (some (insertDrawable place f (path ++ [i]) emptyOctant d)) heq
          refine countOk_node.mpr
            ⟨?_, countOkChildren_set cs i _ hcs (by simp [childOk, hc1])⟩
          have hz : emptyOctant.numDrawables = 0 := rfl
          rw [hz] at hcnt
          simp [childCount] at hsum
          omega
        next heq =>
          exact countOk_node.mpr ⟨by simp; omega, hcs⟩

/-- Claim C2: the count invariant - every octant's `numDrawables` equals its
directly held drawables plus the stored counts of its existing children,
recursively - is preserved by every public mutation: `AddDrawable`,
`RemoveDrawable` (whether or not the drawable is found), `InsertDrawable`
(for every placement the fit heuristic can choose), and reinsertion; the
stored counts are maintained incrementally, never recomputed by traversal. -/
theorem countOk_preserved (o o1 o2 : Octant) (flag : Bool) (p q : List Nat) (d e : Nat)
    (place : List Nat → Option Nat) (fuel : Nat) (path : List Nat)
    (hok : countOk o = true)
    (hadd : addDrawable o p d = some o1)
    (hrem : removeDrawable o q e = some (o2, flag)) :
    countOk o1 = true ∧ countOk o2 = true ∧
    countOk (insertDrawable place fuel path o d) = true ∧
    countOk (reinsertDrawable place fuel o q e) = true := by
  refine ⟨countOk_addDrawable p o o1 d hok hadd,
          countOk_removeDrawable q o o2 flag e hok hrem,
          countOk_insertDrawable place fuel path o d hok, ?_⟩
  unfold reinsertDrawable
  rw [hrem]
  exact countOk_insertDrawable place fuel [] o2 e
    (countOk_removeDrawable q o o2 flag e hok hrem)

/-- Concrete instantiation of `countOk_preserved`: a root with two children
holding one drawable each; drawable 7 is added under child 0, drawable 5 is
removed from child 0 (emptying it), and insertion/reinsertion run with a
store-at-root placement. All hypotheses are discharged by evaluation. -/
theorem countOk_preserved_witness :
    countOk (.node [] 3 [some (.node [5, 7] 2 []), some (.node [6] 1 [])]) = true ∧
    countOk (.node [] 1 [none, some (.node [6] 1 [])]) = true ∧
    countOk (insertDrawable (fun _ => none) 1 []
      (.node [] 2 [some (.node [5] 1 []), some (.node [6] 1 [])]) 7) = true ∧
    countOk (reinsertDrawable (fun _ => none) 1
      (.node [] 2 [some (.node [5] 1 []), some (.node [6] 1 [])]) [0] 5) = true :=
  countOk_preserved
    (.node [] 2 [some (.node [5] 1 []), some (.node [6] 1 [])])
    (.node [] 3 [some (.node [5, 7] 2 []), some (.node [6] 1 [])])
    (.node [] 1 [none, some (.node [6] 1 [])])
    true [0] [0] 7 5 (fun _ => none) 1 []
    (by decide) (by rfl) (by rfl)

/-- Claim C3: when the recursive removal inside child `c` (slot `i`) succeeds
and that child's count reaches zero, `DecDrawableCount` has the parent delete
exactly that child (the slot is nulled precisely when the new count is zero,
kept otherwise), before the parent decrements its own count; every other child
slot is left untouched (freeing never recurses into siblings); and a removal
whose `DecDrawableCount` chain ends at the octant the call started from (the
root, which has no parent) always returns that octant - the root is never
deleted. -/
theorem removeDrawable_detaches_empty (ds : List Nat) (n : Nat)
    (cs : List (Option Octant)) (i : Nat) (p : List Nat) (d : Nat) (c c1 : Octant)
    (hget : cs[i]? = some (some c))
    (hrec : removeDrawable c p d = some (c1, true)) :
    removeDrawable (.node ds n cs) (i :: p) d
      = some (.node ds (n - 1)
          (cs.set i (if c1.numDrawables == 0 then none else some c1)), true) ∧
    (∀ j, j ≠ i →
      (cs.set i (if c1.numDrawables == 0 then none else some c1))[j]? = cs[j]?) ∧
    (∀ (ds1 : List Nat) (n1 : Nat) (cs1 : List (Option Octant)),
      (removeDrawable (.node ds1 n1 cs1) [] d).isSome = true) := by
  refine ⟨?_, ?_, ?_⟩
  · simp only [removeDrawable]
    split
    next c' heq' =>
      rw [hget] at heq'
      simp at heq'
      subst heq'
      split
      next c1' heq2 =>
        rw [hrec] at heq2
        simp at heq2
        subst heq2
        rfl
      next c1' heq2 =>
        rw [hrec] at heq2
        simp at heq2
      next heq2 =>
        rw [hrec] at heq2
        simp at heq2
    next heq' =>
      rw [hget] at heq'
      simp at heq'
  · intro j hj
    exact List.getElem?_set_ne (fun h => hj h.symm)
  · intro ds1 n1 cs1
    by_cases hd : d ∈ ds1 <;> simp [removeDrawable, hd]

/-- Concrete instantiation of `removeDrawable_detaches_empty`: removing
drawable 5 empties the child in slot 0 of a two-child parent; the slot is
nulled, the sibling in slot 1 is untouched, and the parent octant survives
with its count decremented. All hypotheses are discharged by evaluation. -/
theorem removeDrawable_detaches_empty_witness :
    removeDrawable (.node [9] 3 [some (.node [5] 1 []), some (.node [6] 1 [])]) [0] 5
      = some (.node [9] 2 [none, some (.node [6] 1 [])], true) ∧
    (∀ j, j ≠ 0 →
      ([none, some (.node [6] 1 [])] : List (Option Octant))[j]?
        = ([some (.node [5] 1 []), some (.node [6] 1 [])] : List (Option Octant))[j]?) ∧
    (∀ (ds1 : List Nat) (n1 : Nat) (cs1 : List (Option Octant)),
      (removeDrawable (.node ds1 n1 cs1) [] 5).isSome = true) :=
  removeDrawable_detaches_empty [9] 3 [some (.node [5] 1 []), some (.node [6] 1 [])]
    0 [] 5 (.node [5] 1 []) (.node [] 0 []) (by rfl) (by rfl)

/-- Claim C9: `RemoveDrawable` invoked (via `path`) on an octant `t` whose
direct list does not contain the drawable is a complete no-op: the whole tree
(the octant's list and its own and its ancestors' counts included) is returned
unchanged, the found-flag is false, and the drawable's octant back-reference
`b` is not reset. -/
theorem removeDrawable_not_found_noop (o t : Octant) (p : List Nat) (d : Nat)
    (b : Option (List Nat))
    (hget : getOctant o p = some t) (hmem : d ∉ t.drawables) :
    removeDrawable o p d = some (o, false) ∧
    removeDrawableAt o p d b = some (o, b) := by
  have h1 : ∀ (p : List Nat) (o t : Octant), getOctant o p = some t →
      d ∉ t.drawables → removeDrawable o p d = some (o, false) := by
    intro p
    induction p with
    | nil =>
      intro o t hg hm
      simp [getOctant] at hg
      subst hg
      cases o with
      | node ds n cs =>
        simp only [Octant.drawables] at hm
        simp [removeDrawable, hm]
    | cons i p ih =>
      intro o t hg hm
      cases o with
      | node ds n cs =>
        simp only [getOctant] at hg
        split at hg
        next c heq =>
          have hrec := ih c t hg hm
          simp only [removeDrawable]
          split
          next c' heq' =>
            rw [heq] at heq'
            simp at heq'
            subst heq'
            split
            next c1' heq2 =>
              rw [hrec] at heq2
              simp at heq2
            next c1' heq2 => rfl
            next heq2 =>
              rw [hrec] at heq2
              simp at heq2
          next heq' =>
            rw [heq] at heq'
            simp at heq'
        next => simp at hg
  have h2 := h1 p o t hget hmem
  refine ⟨h2, ?_⟩
  unfold removeDrawableAt
  rw [h2]

/-- Concrete instantiation of `removeDrawable_not_found_noop`: removing absent
drawable 2 from an octant holding only drawable 1 changes nothing and keeps
the back-reference. All hypotheses are discharged by evaluation. -/
theorem removeDrawable_not_found_noop_witness :
    removeDrawable (.node [1] 1 []) [] 2 = some (.node [1] 1 [], false) ∧
    removeDrawableAt (.node [1] 1 []) [] 2 (some [3]) = some (.node [1] 1 [], some [3]) :=
  removeDrawable_not_found_noop (.node [1] 1 []) (.node [1] 1 []) [] 2 (some [3])
    (by rfl) (by decide)

/-- Claim C6: `OnMarkedDirty` for the drawable's own node sets the dirty flag
and appends a reinsertion request exactly when the drawable currently has an
octant; the octant back-reference, the tree structure and the update queue are
untouched - no immediate reinsertion happens. -/
theorem onMarkedDirty_spec (dr : DrawableLink) (s : OctreeState) (d : Nat) :
    (onMarkedDirty true dr s d).1.worldBoundingBoxDirty = true ∧
    (onMarkedDirty true dr s d).1.octant = dr.octant ∧
    (onMarkedDirty true dr s d).2.tree = s.tree ∧
    (onMarkedDirty true dr s d).2.drawableUpdates = s.drawableUpdates ∧
    (onMarkedDirty true dr s d).2.drawableReinsertions =
      (if dr.octant.isSome then s.drawableReinsertions ++ [d]
       else s.drawableReinsertions) := by
  cases h : dr.octant <;> simp [onMarkedDirty, queueReinsertion, h]

/-- A drawable present in the direct list of the octant its back-reference
names is found and removed by `RemoveDrawable`. -/
theorem removeDrawable_found : ∀ (p : List Nat) (o t : Octant) (d : Nat),
    getOctant o p = some t → d ∈ t.drawables →
    ∃ o1, removeDrawable o p d = some (o1, true) := by
  intro p
  induction p with
  | nil =>
    intro o t d hg hm
    simp [getOctant] at hg
    subst hg
    cases o with
    | node ds n cs =>
      simp only [Octant.drawables] at hm
      exact ⟨.node (ds.erase d) (n - 1) cs, by simp [removeDrawable, hm]⟩
  | cons i p ih =>
    intro o t d hg hm
    cases o with
    | node ds n cs =>
      simp only [getOctant] at hg
      split at hg
      next c heq =>
        obtain ⟨c1, hc1⟩ := ih c t d hg hm
        refine ⟨.node ds (n - 1)
          (cs.set i (if c1.numDrawables == 0 then none else some c1)), ?_⟩
        simp only [removeDrawable]
        split
        next c' heq' =>
          rw [heq] at heq'
          simp at heq'
          subst heq'
          split
          next c1' heq2 =>
            rw [hc1] at heq2
            simp at heq2
            subst heq2
            rfl
          next c1' heq2 =>
            rw [hc1] at heq2
            simp at heq2
          next heq2 =>
            rw [hc1] at heq2
            simp at heq2
        next heq' =>
          rw [heq] at heq'
          simp at heq'
      next => simp at hg

/-- Claim C7: when a drawable attached at `path` (and actually held by that
octant, per its back-reference) is detached via `RemoveFromOctree` - which is
also everything the destructor does - its pending entries in both the update
queue and the reinsertion queue are cancelled before the unlink, so afterwards
neither queue references it, and the back-reference is cleared. -/
theorem removeFromOctree_cancels (dr : DrawableLink) (s : OctreeState) (d : Nat)
    (path : List Nat) (t : Octant)
    (hoct : dr.octant = some path)
    (hget : getOctant s.tree path = some t)
    (hmem : d ∈ t.drawables) :
    d ∉ (removeFromOctree dr s d).2.drawableUpdates ∧
    d ∉ (removeFromOctree dr s d).2.drawableReinsertions ∧
    (removeFromOctree dr s d).1.octant = none ∧
    drawableDestructor dr s d = removeFromOctree dr s d := by
  obtain ⟨o1, ho1⟩ := removeDrawable_found path s.tree t d hget hmem
  simp only [removeFromOctree, drawableDestructor, hoct, cancelUpdate, cancelReinsertion, ho1]
  refine ⟨?_, ?_, ?_, ?_⟩ <;> simp

/-- Concrete instantiation of `removeFromOctree_cancels`: a drawable with id 4
attached at the root, present in both queues; after detaching, both queues are
free of it and the back-reference is cleared. All hypotheses are discharged by
evaluation. -/
theorem removeFromOctree_cancels_witness :
    4 ∉ (removeFromOctree ⟨some [], true⟩ ⟨.node [4] 1 [], [4], [9, 4]⟩ 4).2.drawableUpdates ∧
    4 ∉ (removeFromOctree ⟨some [], true⟩ ⟨.node [4] 1 [], [4], [9, 4]⟩ 4).2.drawableReinsertions ∧
    (removeFromOctree ⟨some [], true⟩ ⟨.node [4] 1 [], [4], [9, 4]⟩ 4).1.octant = none ∧
    drawableDestructor ⟨some [], true⟩ ⟨.node [4] 1 [], [4], [9, 4]⟩ 4 =
      removeFromOctree ⟨some [], true⟩ ⟨.node [4] 1 [], [4], [9, 4]⟩ 4 :=
  removeFromOctree_cancels ⟨some [], true⟩ ⟨.node [4] 1 [], [4], [9, 4]⟩ 4 [] (.node [4] 1 [])
    (by rfl) (by rfl) (by decide)
